import Mathlib

/-!
Shallow embedding of `src/shitcoin/miner.py` (the proof-of-work mining
core).  Pure computations are translated to Lean functions; the stateful
miner object and the hashing worker become explicit state-passing
functions and a small-step machine; Python exceptions become `Except`.
Machine integers are `Nat` with explicit bounds where Python's semantics
impose them (`struct.pack('>Q', n)` raises for `n ≥ 2^64`, so it is
modelled as an `Option`).

External collaborators (the chain service, mempool, hash primitive,
difficulty function, block serialization and merkle computation — all
outside `src/`) are passed in as explicit parameters, matching the
spec's description of them as opaque services.
-/

namespace Shitcoin

/-! ## Bytes

`int.from_bytes(bs, byteorder='big')` and big-endian serialization.
A byte is a `Nat` (values `< 256` where it matters). -/

/-- Python `int.from_bytes(bs, byteorder='big')`: big-endian interpretation
of a byte string as an unsigned integer. -/
def fromBytesBE (bs : List Nat) : Nat :=
  bs.foldl (fun acc b => acc * 256 + b) 0

/-- Big-endian serialization of `n` into exactly `len` bytes
(truncating high bits, as a fixed-width field does). -/
def toBytesBE : Nat → Nat → List Nat
  | 0, _ => []
  | len + 1, n => toBytesBE len (n / 256) ++ [n % 256]

/-- Python `struct.pack('>Q', n)`: 8-byte big-endian unsigned 64-bit.
`struct.error` is raised when `n` is out of range `[0, 2^64)`; the error
is modelled as `none` (there is no wrap-around modulo `2^64`). -/
def packQ (n : Nat) : Option (List Nat) :=
  if n < 2 ^ 64 then some (toBytesBE 8 n) else none

/-! ## Data model

`Block`, `Transaction`, `Output`, `Input` live in `block.py` /
`transaction.py`, which are external collaborators; only the fields the
miner reads or writes are modelled.  (`Output.block`, the circular
back-reference set by `coinbase_out.block = blk`, carries no data the
claims touch and is omitted.) -/

structure Output where
  amount : Nat
  pubkey : Nat
  deriving Repr, DecidableEq

structure Input where
  index : Nat
  deriving Repr, DecidableEq

structure Transaction where
  inputs : List Input
  outputs : List Output
  deriving Repr, DecidableEq

structure Block where
  prev_hash : Nat
  timestamp : Nat
  diff : Nat
  height : Nat
  txs : List Transaction
  merkle_root : Nat
  nonce : Nat
  deriving Repr, DecidableEq

/-- The lock-protected shared fields of the miner (`target_block`,
`mined_block`, `hashrate`) together with the two `Event`s
(`stop_event`, `retarget_event`).  `hashrate` is a Python float used only
for observability; its value is modelled abstractly as a `Nat`. -/
structure SharedState where
  target_block : Option Block
  mined_block : Option Block
  hashrate : Nat
  retarget_event : Bool
  stop_event : Bool
  deriving Repr, DecidableEq

/-- Controller-side state of a `Miner` instance.  `mining_active` models
`self.mining_thread is not None`; the two `registered` flags model the
callback registrations with the blockchain and mempool. -/
structure Miner where
  pubkey : Nat
  reduce_local_diff : Bool
  mining_active : Bool
  block_cb_registered : Bool
  tx_cb_registered : Bool
  shared : SharedState
  deriving Repr, DecidableEq

/-- Inputs the miner obtains from its external collaborators during one
`retarget` call: the chain head's hash, the wall clock, the next
difficulty, the candidate's height (`blk.get_height()`), the mempool
snapshot and its total fees, the random 4-byte coinbase input index, the
reward constants from `settings.py`, and the merkle-root computation. -/
structure Env where
  head_hash : Nat
  now : Nat
  next_diff : Nat
  height : Nat
  pending : List Transaction
  total_fees : Nat
  coinbase_index : Nat
  initial_reward : Nat
  reward_halving_len : Nat
  merkle_root : List Transaction → Nat

inductive MinerErr where
  | alreadyRunning
  | notRunning
  deriving Repr, DecidableEq

/-! ## Target builder (`Miner.retarget`) -/

/-- Modelled from the spec: `Block.add_transactions` (in `block.py`, not
under `src/`) appends the given pending transactions, in the supplied
order, to the block's transaction list.  (Spec §4.1: "Appends all
currently-pending transactions in an externally-supplied order".) -/
def Block.add_transactions (b : Block) (txs : List Transaction) : Block :=
  { b with txs := b.txs ++ txs }

/-- The coinbase reward computed inside `Miner.retarget`:
`INITIAL_REWARD // (2 ** (blk.get_height() // REWARD_HALVING_LEN))` plus
`self.mempool.total_fees` (all Python `//` is flooring division on
non-negative integers, i.e. `Nat` division). -/
def coinbaseReward (env : Env) : Nat :=
  env.initial_reward / 2 ^ (env.height / env.reward_halving_len)
    + env.total_fees

/-- The coinbase transaction built inside `Miner.retarget`: one output
paying the reward to the configured address, one dummy input whose index
is the random 4-byte value (for txid uniqueness). -/
def coinbaseTx (env : Env) (pubkey : Nat) : Transaction :=
  { inputs := [{ index := env.coinbase_index }]
    outputs := [{ amount := coinbaseReward env, pubkey := pubkey }] }

/-- The body of `Miner.retarget` that builds the candidate block:
parent linkage, timestamp, difficulty, pending transactions, then the
coinbase transaction appended via `blk.txs.append(coinbase)`, and
finally the merkle root over the resulting transaction list. -/
def buildCandidate (env : Env) (pubkey : Nat) : Block :=
  let blk : Block :=
    { prev_hash := env.head_hash
      timestamp := env.now
      diff := env.next_diff
      height := env.height
      txs := []
      merkle_root := 0
      nonce := 0 }
  let blk := blk.add_transactions env.pending
  let blk := { blk with txs := blk.txs ++ [coinbaseTx env pubkey] }
  { blk with merkle_root := env.merkle_root blk.txs }

/-- `Miner.retarget`: build a fresh candidate and, under the lock,
publish it as `target_block` and set the retarget event. -/
def Miner.retarget (env : Env) (m : Miner) : Miner :=
  { m with shared := { m.shared with
      target_block := some (buildCandidate env m.pubkey)
      retarget_event := true } }

/-! ## Lifecycle controller -/

/-- The miner state just before the mining thread is spawned inside
`start_mining`: callbacks registered, both events cleared, then the one
synchronous `retarget()`.  (`Thread(...).start()` is the last statement
of `start_mining`.) -/
def Miner.stateBeforeSpawn (env : Env) (m : Miner) : Miner :=
  Miner.retarget env
    { m with
      block_cb_registered := true
      tx_cb_registered := true
      shared := { m.shared with stop_event := false, retarget_event := false } }

/-- `Miner.start_mining`: raises `MinerIsRunningException` when a thread
is already active — the raise is the method's first statement, so the
miner state is returned unchanged alongside the error; otherwise
registers the callbacks, clears both events, retargets once
synchronously and spawns the mining thread.  The result pairs the raised
exception (if any) with the miner state after the call. -/
def Miner.start_mining (env : Env) (m : Miner) : Option MinerErr × Miner :=
  if m.mining_active then (some .alreadyRunning, m)
  else (none, { m.stateBeforeSpawn env with mining_active := true })

/-- `Miner.stop_mining`: raises `MinerIsNotRunningException` when no
thread is active — again the raise precedes any state change; otherwise
unregisters the callbacks, sets the stop event, joins with a 10 s
timeout (wall-clock behaviour outside the state model) and clears
`mining_thread`. -/
def Miner.stop_mining (m : Miner) : Option MinerErr × Miner :=
  if m.mining_active then
    (none, { m with
      block_cb_registered := false
      tx_cb_registered := false
      shared := { m.shared with stop_event := true }
      mining_active := false })
  else (some .notRunning, m)

/-- `Miner.get_hashrate`: raises when not running, else returns the
hashrate read under the lock. -/
def Miner.get_hashrate (m : Miner) : Except MinerErr Nat :=
  if m.mining_active then .ok m.shared.hashrate else .error .notRunning

/-- `Miner.get_mined_block`: under the lock, read `mined_block` and clear
it to `None`; return the read value together with the updated state. -/
def Miner.get_mined_block (m : Miner) : Option Block × Miner :=
  (m.shared.mined_block,
    { m with shared := { m.shared with mined_block := none } })

/-! ## Hash search loop (`Miner.mine`) -/

/-- The local-difficulty reduction applied in `mine`:
`if self.reduce_local_diff: diff = max(diff - 10, 1)`.
(For `Nat` arguments, truncated subtraction agrees with Python's
`max(d - 10, 1)` over the integers.) -/
def effectiveDiff (reduce : Bool) (d : Nat) : Nat :=
  if reduce then max (d - 10) 1 else d

/-- The numeric target `target_hash = 1 << (8 * HASH_LEN - diff)`.
`L` is `HASH_LEN`, the digest length in bytes of the external hash
primitive. -/
def target_hash (L d : Nat) : Nat := 2 ^ (8 * L - d)

/-- The acceptance test of the inner hash loop: hash the header prefix
with the 8-byte big-endian nonce appended, and compare the digest,
read big-endian, strictly against the target
(`int.from_bytes(h, byteorder='big') < target_hash`).
`hashFn` is the external digest primitive `crypto.h`. -/
def accepts (hashFn : List Nat → List Nat) (pre : List Nat)
    (tgt nonce : Nat) : Bool :=
  fromBytesBE (hashFn (pre ++ toBytesBE 8 nonce)) < tgt

/-- Control position of the hashing worker: blocked in the
wait-for-target loop, searching a fixed candidate (with its precomputed
header prefix and numeric target), or returned. -/
inductive Phase where
  | waiting
  | searching (blk : Block) (pre : List Nat) (tgt : Nat)
  | terminated
  deriving Repr, DecidableEq

/-- Thread-local state of the hashing worker: its control position, the
thread-local `nonce` counter, and its view of the shared state. -/
structure WorkerState where
  phase : Phase
  nonce : Nat
  shared : SharedState
  deriving Repr, DecidableEq

/-- Worker state at the top of `Miner.mine`: the nonce counter is seeded
once, for the thread's lifetime, from `int.from_bytes(urandom(4), 'big')`
(`seed` is the 4 random bytes). -/
def mineInit (seed : List Nat) (sh : SharedState) : WorkerState :=
  { phase := .waiting, nonce := fromBytesBE seed, shared := sh }

/-- One iteration of the wait-for-target loop: under the lock read
`target_block` and clear the retarget event, then check the stop event.
With a target in hand the worker precomputes the header prefix
(`serialize_header` bytes with the trailing 8 nonce bytes removed), the
effective difficulty and the numeric target, and enters the search.
`serh` is the external header serialization, `L` is `HASH_LEN`. -/
def waitStep (serh : Block → List Nat) (L : Nat) (reduce : Bool)
    (s : WorkerState) : WorkerState :=
  let sh := { s.shared with retarget_event := false }
  if sh.stop_event then { s with shared := sh, phase := .terminated }
  else
    match sh.target_block with
    | none => { s with shared := sh, phase := .waiting }
    | some blk =>
        let hdr := serh blk
        let pre := hdr.take (hdr.length - 8)
        { s with shared := sh
                 phase := .searching blk pre (target_hash L (effectiveDiff reduce blk.diff)) }

/-- The lock-protected update performed on a hit (`miner.py` lines
140–150): the winning nonce is written into the candidate
(`target_block.nonce = nonce`), the candidate is published as
`mined_block`, `target_block` is cleared to `None` and the retarget
event is set; the worker's local target becomes `None`, sending it back
to the wait loop.  The nonce counter and the remaining shared fields
(`hashrate`, the stop event) are untouched. -/
def hitState (s : WorkerState) (blk : Block) : WorkerState :=
  { s with
    phase := .waiting
    shared := { s.shared with
      mined_block := some { blk with nonce := s.nonce }
      target_block := none
      retarget_event := true } }

/-- One iteration of the innermost hashing loop at the current nonce:
serialize the nonce (`struct.pack('>Q', nonce)` — `none` models the
`struct.error` raised for a counter `≥ 2^64`), hash, compare.  On a hit,
write the winning nonce into the candidate, publish it as `mined_block`,
clear `target_block`, set the retarget event (all under the lock) and
fall back to the wait loop; on a miss, increment the nonce.  In a phase
other than `searching` the step is a no-op.  (The batch-boundary
hashrate sample and stop check are wall-clock accounting outside this
per-hash step.) -/
def hashStep (hashFn : List Nat → List Nat) (s : WorkerState) :
    Option WorkerState :=
  match s.phase with
  | .searching blk pre tgt =>
      match packQ s.nonce with
      | none => none
      | some nb =>
          if fromBytesBE (hashFn (pre ++ nb)) < tgt then some (hitState s blk)
          else some { s with nonce := s.nonce + 1 }
  | _ => some s

/-! ## Facts about the byte codecs -/

lemma toBytesBE_length (len n : Nat) : (toBytesBE len n).length = len := by
  induction len generalizing n with
  | zero => rfl
  | succ len ih => simp [toBytesBE, ih]

lemma fromBytesBE_snoc (bs : List Nat) (b : Nat) :
    fromBytesBE (bs ++ [b]) = 256 * fromBytesBE bs + b := by
  simp only [fromBytesBE, List.foldl_append, List.foldl_cons, List.foldl_nil]
  omega

lemma fromBytesBE_toBytesBE (len n : Nat) (h : n < 256 ^ len) :
    fromBytesBE (toBytesBE len n) = n := by
  induction len generalizing n with
  | zero =>
      have hn : n = 0 := by simpa using h
      simp [hn, toBytesBE, fromBytesBE]
  | succ len ih =>
      have hdiv : n / 256 < 256 ^ len := by
        rw [Nat.div_lt_iff_lt_mul (by norm_num : (0:Nat) < 256)]
        calc n < 256 ^ (len + 1) := h
          _ = 256 ^ len * 256 := by rw [pow_succ]
      rw [show toBytesBE (len + 1) n = toBytesBE len (n / 256) ++ [n % 256] from rfl,
        fromBytesBE_snoc, ih _ hdiv]
      omega

lemma foldlBytes_lt (bs : List Nat) (acc : Nat) (h : ∀ b ∈ bs, b < 256) :
    bs.foldl (fun a b => a * 256 + b) acc < (acc + 1) * 256 ^ bs.length := by
  induction bs generalizing acc with
  | nil => simp
  | cons b bs ih =>
      have hb : b < 256 := h b (by simp)
      have htail : ∀ x ∈ bs, x < 256 := fun x hx => h x (by simp [hx])
      calc (b :: bs).foldl (fun a c => a * 256 + c) acc
          = bs.foldl (fun a c => a * 256 + c) (acc * 256 + b) := by simp
        _ < (acc * 256 + b + 1) * 256 ^ bs.length := ih _ htail
        _ ≤ ((acc + 1) * 256) * 256 ^ bs.length :=
            Nat.mul_le_mul_right _ (by omega)
        _ = (acc + 1) * 256 ^ (b :: bs).length := by
            rw [List.length_cons, pow_succ]; ring

lemma fromBytesBE_lt (bs : List Nat) (h : ∀ b ∈ bs, b < 256) :
    fromBytesBE bs < 256 ^ bs.length := by
  simpa [fromBytesBE] using foldlBytes_lt bs 0 h

/-! ## Facts about the worker steps -/

lemma waitStep_eq (serh : Block → List Nat) (L : Nat) (reduce : Bool)
    (s : WorkerState) (blk : Block)
    (htb : s.shared.target_block = some blk)
    (hstop : s.shared.stop_event = false) :
    waitStep serh L reduce s =
      { s with
        shared := { s.shared with retarget_event := false }
        phase := .searching blk ((serh blk).take ((serh blk).length - 8))
          (target_hash L (effectiveDiff reduce blk.diff)) } := by
  simp [waitStep, htb, hstop]

lemma waitStep_nonce (serh : Block → List Nat) (L : Nat) (reduce : Bool)
    (s : WorkerState) : (waitStep serh L reduce s).nonce = s.nonce := by
  cases hst : s.shared.stop_event <;>
    cases htb : s.shared.target_block <;>
      simp [waitStep, hst, htb]

lemma hashStep_searching (hashFn : List Nat → List Nat) (s : WorkerState)
    (blk : Block) (pre : List Nat) (tgt : Nat)
    (hph : s.phase = .searching blk pre tgt) (hn : s.nonce < 2 ^ 64) :
    hashStep hashFn s =
      some (if fromBytesBE (hashFn (pre ++ toBytesBE 8 s.nonce)) < tgt
            then hitState s blk else { s with nonce := s.nonce + 1 }) := by
  unfold hashStep
  rw [hph]
  simp only [packQ]
  rw [if_pos hn]
  dsimp only
  split <;> rfl

lemma hashStep_hit_iff (hashFn : List Nat → List Nat) (s : WorkerState)
    (blk : Block) (pre : List Nat) (tgt : Nat)
    (hph : s.phase = .searching blk pre tgt) (hn : s.nonce < 2 ^ 64) :
    (hashStep hashFn s = some (hitState s blk) ↔
      fromBytesBE (hashFn (pre ++ toBytesBE 8 s.nonce)) < tgt) := by
  rw [hashStep_searching hashFn s blk pre tgt hph hn]
  constructor
  · intro h
    by_contra hge
    rw [if_neg hge] at h
    have heq := Option.some.inj h
    have hp : ({ s with nonce := s.nonce + 1 } : WorkerState).phase =
        (hitState s blk).phase := by rw [heq]
    rw [show ({ s with nonce := s.nonce + 1 } : WorkerState).phase = s.phase
        from rfl, hph] at hp
    simp [hitState] at hp
  · intro h
    rw [if_pos h]

lemma hashStep_nonce_mono (hashFn : List Nat → List Nat)
    (s t : WorkerState) (h : hashStep hashFn s = some t) :
    s.nonce ≤ t.nonce := by
  cases hph : s.phase with
  | searching blk pre tgt =>
      by_cases hn : s.nonce < 2 ^ 64
      · rw [hashStep_searching hashFn s blk pre tgt hph hn] at h
        obtain rfl := (Option.some.inj h).symm
        split
        · exact le_refl _
        · exact Nat.le_succ _
      · have hnone : hashStep hashFn s = none := by
          unfold hashStep
          rw [hph]
          simp only [packQ]
          rw [if_neg hn]
        rw [hnone] at h
        exact absurd h (by simp)
  | waiting =>
      have hid : hashStep hashFn s = some s := by
        unfold hashStep
        rw [hph]
      rw [hid] at h
      obtain rfl := (Option.some.inj h).symm
      exact le_refl _
  | terminated =>
      have hid : hashStep hashFn s = some s := by
        unfold hashStep
        rw [hph]
      rw [hid] at h
      obtain rfl := (Option.some.inj h).symm
      exact le_refl _

/-! ## Claim theorems -/

/-- Claim C1: after adopting a target of difficulty `d` (after any local
reduction) the hash search loop uses the numeric threshold
`2^(8·L − d)` where `L = HASH_LEN`, and a nonce is accepted as a hit
exactly when its digest, read as a big-endian unsigned integer, is
strictly below that threshold: a digest `≥` the threshold is never
accepted, and any digest `<` it is always accepted. -/
theorem mine_hit_iff_digest_below_threshold
    (serh : Block → List Nat) (hashFn : List Nat → List Nat)
    (L : Nat) (reduce : Bool) (s : WorkerState) (blk : Block)
    (htb : s.shared.target_block = some blk)
    (hstop : s.shared.stop_event = false)
    (hn : s.nonce < 2 ^ 64) :
    ∃ pre,
      (waitStep serh L reduce s).phase =
        Phase.searching blk pre (2 ^ (8 * L - effectiveDiff reduce blk.diff)) ∧
      (hashStep hashFn (waitStep serh L reduce s) =
          some (hitState (waitStep serh L reduce s) blk) ↔
        fromBytesBE (hashFn (pre ++ toBytesBE 8 s.nonce)) <
          2 ^ (8 * L - effectiveDiff reduce blk.diff)) := by
  refine ⟨(serh blk).take ((serh blk).length - 8), ?_, ?_⟩
  · rw [waitStep_eq serh L reduce s blk htb hstop]
    rfl
  · have hph : (waitStep serh L reduce s).phase =
        Phase.searching blk ((serh blk).take ((serh blk).length - 8))
          (target_hash L (effectiveDiff reduce blk.diff)) := by
      rw [waitStep_eq serh L reduce s blk htb hstop]
    have hn' : (waitStep serh L reduce s).nonce < 2 ^ 64 := by
      rw [waitStep_nonce]
      exact hn
    have hiff := hashStep_hit_iff hashFn (waitStep serh L reduce s) blk
      ((serh blk).take ((serh blk).length - 8))
      (target_hash L (effectiveDiff reduce blk.diff)) hph hn'
    rw [waitStep_nonce] at hiff
    exact hiff

theorem mine_hit_iff_digest_below_threshold_witness :
    ∃ pre,
      (waitStep (fun _ => List.replicate 9 0) 1 false
          ⟨Phase.waiting, 0,
            ⟨some ⟨0, 0, 0, 0, [], 0, 0⟩, none, 0, false, false⟩⟩).phase =
        Phase.searching ⟨0, 0, 0, 0, [], 0, 0⟩ pre (2 ^ 8) ∧
      (hashStep (fun _ => [0])
          (waitStep (fun _ => List.replicate 9 0) 1 false
            ⟨Phase.waiting, 0,
              ⟨some ⟨0, 0, 0, 0, [], 0, 0⟩, none, 0, false, false⟩⟩) =
          some (hitState
            (waitStep (fun _ => List.replicate 9 0) 1 false
              ⟨Phase.waiting, 0,
                ⟨some ⟨0, 0, 0, 0, [], 0, 0⟩, none, 0, false, false⟩⟩)
            ⟨0, 0, 0, 0, [], 0, 0⟩) ↔
        fromBytesBE [0] < 2 ^ 8) :=
  mine_hit_iff_digest_below_threshold (fun _ => List.replicate 9 0)
    (fun _ => [0]) 1 false
    ⟨Phase.waiting, 0, ⟨some ⟨0, 0, 0, 0, [], 0, 0⟩, none, 0, false, false⟩⟩
    ⟨0, 0, 0, 0, [], 0, 0⟩ rfl rfl (by norm_num)

/-- A retarget environment holding exactly one pending transaction
(the empty transaction), used to exercise transaction ordering. -/
def envOnePending : Env :=
  { head_hash := 0, now := 0, next_diff := 0, height := 0
    pending := [{ inputs := [], outputs := [] }]
    total_fees := 0, coinbase_index := 7
    initial_reward := 50, reward_halving_len := 10
    merkle_root := fun _ => 0 }

/-- A freshly constructed, idle miner paying to address 3. -/
def minerAt3 : Miner :=
  { pubkey := 3, reduce_local_diff := false, mining_active := false
    block_cb_registered := false, tx_cb_registered := false
    shared := { target_block := none, mined_block := none, hashrate := 0
                retarget_event := false, stop_event := false } }

/-- Claim C2 is false on the code: `Miner.retarget` runs
`blk.txs.append(coinbase)` after adding the pending transactions, so
with one pending transaction the first element of the candidate's
transaction list is that pending transaction, not the coinbase — the
coinbase ends up last. -/
theorem coinbase_not_first_counterexample :
    ((Miner.retarget envOnePending minerAt3).shared.target_block.map
        (fun b => b.txs.head?)) =
      some (some { inputs := [], outputs := [] })
  ∧ ((Miner.retarget envOnePending minerAt3).shared.target_block.map
        (fun b => b.txs.getLast?)) =
      some (some (coinbaseTx envOnePending 3))
  ∧ ({ inputs := [], outputs := [] } : Transaction) ≠
      coinbaseTx envOnePending 3 := by
  refine ⟨rfl, rfl, by decide⟩

/-- Claim C2 amended: for every chain head and mempool snapshot, the
candidate block produced by a retarget has the coinbase transaction
appended to the transaction list — the coinbase is the last element of
the candidate's ordered transaction sequence, with all pending
transactions before it. -/
theorem retarget_appends_coinbase_last (env : Env) (m : Miner) :
    ∃ blk, (Miner.retarget env m).shared.target_block = some blk ∧
      blk.txs = env.pending ++ [coinbaseTx env m.pubkey] :=
  ⟨buildCandidate env m.pubkey, rfl, by
    simp [buildCandidate, Block.add_transactions]⟩

/-- Claim C3: when the hash search loop finds a winning nonce, it
performs exactly this update: the winning nonce is written into the
candidate block, the block is published as `mined_block`, `target_block`
is cleared to empty and the retarget event is set, while the hashrate
and the stop event are untouched; the worker's phase returns to waiting
for a target with its nonce counter intact. -/
theorem mine_hit_updates_shared_state
    (hashFn : List Nat → List Nat) (s : WorkerState)
    (blk : Block) (pre : List Nat) (tgt : Nat)
    (hph : s.phase = .searching blk pre tgt)
    (hn : s.nonce < 2 ^ 64)
    (hhit : fromBytesBE (hashFn (pre ++ toBytesBE 8 s.nonce)) < tgt) :
    hashStep hashFn s = some
      { phase := Phase.waiting
        nonce := s.nonce
        shared := { target_block := none
                    mined_block := some { blk with nonce := s.nonce }
                    hashrate := s.shared.hashrate
                    retarget_event := true
                    stop_event := s.shared.stop_event } } := by
  rw [hashStep_searching hashFn s blk pre tgt hph hn, if_pos hhit]
  rfl

theorem mine_hit_updates_shared_state_witness :
    hashStep (fun _ => [0])
        ⟨Phase.searching ⟨0, 0, 0, 0, [], 0, 0⟩ [] 1, 5,
          ⟨none, none, 0, false, false⟩⟩ =
      some ⟨Phase.waiting, 5,
        ⟨none, some ⟨0, 0, 0, 0, [], 0, 5⟩, 0, true, false⟩⟩ :=
  mine_hit_updates_shared_state (fun _ => [0])
    ⟨Phase.searching ⟨0, 0, 0, 0, [], 0, 0⟩ [] 1, 5,
      ⟨none, none, 0, false, false⟩⟩
    ⟨0, 0, 0, 0, [], 0, 0⟩ [] 1 rfl (by norm_num) (by decide)

/-- Claim C4: for every height `h`, halving interval `H > 0`, initial
reward `R` and total pending fees `F`, the coinbase output amount of the
candidate built by `retarget` equals `R / 2^(h / H) + F` in flooring
integer arithmetic (the `H > 0` hypothesis mirrors Python, where
`h // 0` would raise rather than produce a value). -/
theorem retarget_coinbase_reward_formula (env : Env) (m : Miner)
    (hH : 0 < env.reward_halving_len) :
    ∃ blk, (Miner.retarget env m).shared.target_block = some blk ∧
      blk.txs.getLast? = some (coinbaseTx env m.pubkey) ∧
      (coinbaseTx env m.pubkey).outputs.map Output.amount =
        [env.initial_reward / 2 ^ (env.height / env.reward_halving_len)
          + env.total_fees] := by
  refine ⟨buildCandidate env m.pubkey, rfl, ?_, rfl⟩
  simp [buildCandidate, Block.add_transactions]

theorem retarget_coinbase_reward_formula_witness :
    (0 : Nat) < 10 ∧
    ∃ blk,
      (Miner.retarget
          { head_hash := 0, now := 0, next_diff := 0, height := 10
            pending := [], total_fees := 3, coinbase_index := 9
            initial_reward := 50, reward_halving_len := 10
            merkle_root := fun _ => 0 }
          { pubkey := 1, reduce_local_diff := false, mining_active := false
            block_cb_registered := false, tx_cb_registered := false
            shared := { target_block := none, mined_block := none
                        hashrate := 0, retarget_event := false
                        stop_event := false } }).shared.target_block =
        some blk ∧
      blk.txs.getLast? =
        some (coinbaseTx
          { head_hash := 0, now := 0, next_diff := 0, height := 10
            pending := [], total_fees := 3, coinbase_index := 9
            initial_reward := 50, reward_halving_len := 10
            merkle_root := fun _ => 0 } 1) ∧
      (coinbaseTx
          { head_hash := 0, now := 0, next_diff := 0, height := 10
            pending := [], total_fees := 3, coinbase_index := 9
            initial_reward := 50, reward_halving_len := 10
            merkle_root := fun _ => 0 } 1).outputs.map Output.amount =
        [28] :=
  ⟨by norm_num,
    retarget_coinbase_reward_formula
      { head_hash := 0, now := 0, next_diff := 0, height := 10
        pending := [], total_fees := 3, coinbase_index := 9
        initial_reward := 50, reward_halving_len := 10
        merkle_root := fun _ => 0 }
      { pubkey := 1, reduce_local_diff := false, mining_active := false
        block_cb_registered := false, tx_cb_registered := false
        shared := { target_block := none, mined_block := none
                    hashrate := 0, retarget_event := false
                    stop_event := false } }
      (by norm_num)⟩

/-- Claim C5: `start_mining` raises `AlreadyRunning` exactly when a
worker is already active (the error iff the flag, so it is never raised
when idle), `stop_mining` and `get_hashrate` raise `NotRunning` exactly
when none is active (never while active), no other error is ever
raised — each call either succeeds or fails with precisely its
contract's error while returning the miner state unchanged
(`get_hashrate` never mutates the state at all). -/
theorem lifecycle_error_conditions (env : Env) (m : Miner) :
    ((Miner.start_mining env m).1 = some MinerErr.alreadyRunning ↔
        m.mining_active = true)
  ∧ ((Miner.start_mining env m).1 = none ∨
      ((Miner.start_mining env m).1 = some MinerErr.alreadyRunning ∧
        (Miner.start_mining env m).2 = m))
  ∧ ((Miner.stop_mining m).1 = some MinerErr.notRunning ↔
        m.mining_active = false)
  ∧ ((Miner.stop_mining m).1 = none ∨
      ((Miner.stop_mining m).1 = some MinerErr.notRunning ∧
        (Miner.stop_mining m).2 = m))
  ∧ (Miner.get_hashrate m = Except.error MinerErr.notRunning ↔
        m.mining_active = false)
  ∧ Miner.get_hashrate m ≠ Except.error MinerErr.alreadyRunning := by
  cases hm : m.mining_active <;>
    simp [Miner.start_mining, Miner.stop_mining, Miner.get_hashrate, hm]

/-- Claim C6: `get_mined_block` is a one-shot consuming read: it returns
the current `mined_block` (empty if there is none), the state after the
call has `mined_block` cleared and nothing else touched, and a second
immediate call returns empty — no caller observes the same mined block
twice. -/
theorem get_mined_block_consuming (m : Miner) :
    (Miner.get_mined_block m).1 = m.shared.mined_block
  ∧ (Miner.get_mined_block m).2 =
      { m with shared := { m.shared with mined_block := none } }
  ∧ (Miner.get_mined_block (Miner.get_mined_block m).2).1 = none :=
  ⟨rfl, rfl, rfl⟩

/-- Claim C7: in every successful `start_mining` the one synchronous
retarget completes first — the state from which the worker thread is
spawned already carries the freshly built candidate as a non-empty
`target_block` — and spawning the worker is the final step. -/
theorem start_retargets_before_spawn (env : Env) (m : Miner)
    (h : m.mining_active = false) :
    Miner.start_mining env m =
      (none, { Miner.stateBeforeSpawn env m with mining_active := true })
  ∧ (Miner.stateBeforeSpawn env m).shared.target_block =
      some (buildCandidate env m.pubkey) := by
  constructor
  · simp [Miner.start_mining, h]
  · rfl

theorem start_retargets_before_spawn_witness :
    Miner.start_mining
        { head_hash := 5, now := 0, next_diff := 4, height := 1
          pending := [], total_fees := 0, coinbase_index := 2
          initial_reward := 50, reward_halving_len := 10
          merkle_root := fun _ => 0 }
        { pubkey := 8, reduce_local_diff := false, mining_active := false
          block_cb_registered := false, tx_cb_registered := false
          shared := { target_block := none, mined_block := none
                      hashrate := 0, retarget_event := false
                      stop_event := false } } =
      (none,
        { Miner.stateBeforeSpawn
            { head_hash := 5, now := 0, next_diff := 4, height := 1
              pending := [], total_fees := 0, coinbase_index := 2
              initial_reward := 50, reward_halving_len := 10
              merkle_root := fun _ => 0 }
            { pubkey := 8, reduce_local_diff := false, mining_active := false
              block_cb_registered := false, tx_cb_registered := false
              shared := { target_block := none, mined_block := none
                          hashrate := 0, retarget_event := false
                          stop_event := false } } with mining_active := true })
  ∧ (Miner.stateBeforeSpawn
        { head_hash := 5, now := 0, next_diff := 4, height := 1
          pending := [], total_fees := 0, coinbase_index := 2
          initial_reward := 50, reward_halving_len := 10
          merkle_root := fun _ => 0 }
        { pubkey := 8, reduce_local_diff := false, mining_active := false
          block_cb_registered := false, tx_cb_registered := false
          shared := { target_block := none, mined_block := none
                      hashrate := 0, retarget_event := false
                      stop_event := false } }).shared.target_block =
      some (buildCandidate
        { head_hash := 5, now := 0, next_diff := 4, height := 1
          pending := [], total_fees := 0, coinbase_index := 2
          initial_reward := 50, reward_halving_len := 10
          merkle_root := fun _ => 0 } 8) :=
  start_retargets_before_spawn
    { head_hash := 5, now := 0, next_diff := 4, height := 1
      pending := [], total_fees := 0, coinbase_index := 2
      initial_reward := 50, reward_halving_len := 10
      merkle_root := fun _ => 0 }
    { pubkey := 8, reduce_local_diff := false, mining_active := false
      block_cb_registered := false, tx_cb_registered := false
      shared := { target_block := none, mined_block := none
                  hashrate := 0, retarget_event := false
                  stop_event := false } } rfl

/-- Claim C8: with `reduce_local_diff` configured, the difficulty used
to compute the numeric target is `max(d − 10, 1)` (over the integers,
as in Python); without it the candidate's difficulty is used unchanged —
and the worker's target on entering the search is computed from exactly
this effective difficulty. -/
theorem reduce_local_diff_effective
    (serh : Block → List Nat) (L : Nat) (reduce : Bool)
    (s : WorkerState) (blk : Block)
    (htb : s.shared.target_block = some blk)
    (hstop : s.shared.stop_event = false) :
    (∀ d : Nat, (effectiveDiff true d : Int) = max ((d : Int) - 10) 1)
  ∧ (∀ d : Nat, effectiveDiff false d = d)
  ∧ (waitStep serh L reduce s).phase =
      Phase.searching blk ((serh blk).take ((serh blk).length - 8))
        (target_hash L (effectiveDiff reduce blk.diff)) := by
  refine ⟨?_, fun d => rfl, ?_⟩
  · intro d
    simp only [effectiveDiff, if_true]
    omega
  · rw [waitStep_eq serh L reduce s blk htb hstop]

theorem reduce_local_diff_effective_witness :
    (∀ d : Nat, (effectiveDiff true d : Int) = max ((d : Int) - 10) 1)
  ∧ (∀ d : Nat, effectiveDiff false d = d)
  ∧ (waitStep (fun _ => List.replicate 9 0) 1 false
        ⟨Phase.waiting, 0,
          ⟨some ⟨0, 0, 0, 0, [], 0, 0⟩, none, 0, false, false⟩⟩).phase =
      Phase.searching ⟨0, 0, 0, 0, [], 0, 0⟩
        ((List.replicate 9 0).take ((List.replicate 9 0).length - 8))
        (target_hash 1 (effectiveDiff false 0)) :=
  reduce_local_diff_effective (fun _ => List.replicate 9 0) 1 false
    ⟨Phase.waiting, 0, ⟨some ⟨0, 0, 0, 0, [], 0, 0⟩, none, 0, false, false⟩⟩
    ⟨0, 0, 0, 0, [], 0, 0⟩ rfl rfl

/-- Claim C9 is false as stated: `struct.pack('>Q', n)` does not
serialize a counter value `≥ 2^64` as the value modulo `2^64` — it
raises `struct.error` (modelled as `none`), so at `n = 2^64` the
serialization is not the 8-byte encoding of `2^64 % 2^64 = 0`. -/
theorem packQ_no_wraparound_counterexample :
    packQ (2 ^ 64) ≠ some (toBytesBE 8 (2 ^ 64 % 2 ^ 64)) := by
  have h : packQ (2 ^ 64) = none := by
    simp only [packQ]
    rw [if_neg (lt_irrefl _)]
  rw [h]
  simp

/-- Claim C9 amended: the nonce counter starts from a 4-byte
big-endian seed (hence below `2^32`), chosen once when the worker
starts; it is never reset — neither by an iteration of the wait loop
(hence not on retarget) nor by a hash step, which only keeps it or
increments it; every tested nonce below `2^64` is serialized as exactly
8 big-endian bytes (faithfully, round-tripping to the value) appended to
the header prefix; wraparound past `2^64` is not guarded against, and
serializing a counter value `≥ 2^64` fails (`struct.error`) rather than
wrapping modulo `2^64`. -/
theorem nonce_counter_semantics
    (seed : List Nat) (sh : SharedState)
    (serh : Block → List Nat) (hashFn : List Nat → List Nat)
    (L : Nat) (reduce : Bool)
    (hlen : seed.length = 4) (hbytes : ∀ b ∈ seed, b < 256) :
    (mineInit seed sh).nonce < 2 ^ 32
  ∧ (∀ s : WorkerState, (waitStep serh L reduce s).nonce = s.nonce)
  ∧ (∀ s t : WorkerState, hashStep hashFn s = some t → s.nonce ≤ t.nonce)
  ∧ (∀ n : Nat, n < 2 ^ 64 →
      packQ n = some (toBytesBE 8 n) ∧ (toBytesBE 8 n).length = 8 ∧
        fromBytesBE (toBytesBE 8 n) = n)
  ∧ (∀ n : Nat, 2 ^ 64 ≤ n → packQ n = none)
  ∧ (∀ s : WorkerState, ∀ blk pre tgt, s.phase = .searching blk pre tgt →
      s.nonce < 2 ^ 64 →
      hashStep hashFn s =
        some (if fromBytesBE (hashFn (pre ++ toBytesBE 8 s.nonce)) < tgt
              then hitState s blk
              else { s with nonce := s.nonce + 1 })) := by
  refine ⟨?_, waitStep_nonce serh L reduce, hashStep_nonce_mono hashFn,
    ?_, ?_, ?_⟩
  · have h := fromBytesBE_lt seed hbytes
    rw [hlen] at h
    calc (mineInit seed sh).nonce = fromBytesBE seed := rfl
      _ < 256 ^ 4 := h
      _ = 2 ^ 32 := by norm_num
  · intro n hn
    refine ⟨?_, toBytesBE_length 8 n, ?_⟩
    · simp only [packQ]
      rw [if_pos hn]
    · refine fromBytesBE_toBytesBE 8 n ?_
      calc n < 2 ^ 64 := hn
        _ = 256 ^ 8 := by norm_num
  · intro n hn
    simp only [packQ]
    rw [if_neg (Nat.not_lt.mpr hn)]
  · intro s blk pre tgt hph hn
    exact hashStep_searching hashFn s blk pre tgt hph hn

theorem nonce_counter_semantics_witness :
    (mineInit [1, 2, 3, 4] ⟨none, none, 0, false, false⟩).nonce < 2 ^ 32
  ∧ (∀ s : WorkerState, (waitStep (fun _ => []) 32 false s).nonce = s.nonce)
  ∧ (∀ s t : WorkerState, hashStep (fun _ => []) s = some t →
      s.nonce ≤ t.nonce)
  ∧ (∀ n : Nat, n < 2 ^ 64 →
      packQ n = some (toBytesBE 8 n) ∧ (toBytesBE 8 n).length = 8 ∧
        fromBytesBE (toBytesBE 8 n) = n)
  ∧ (∀ n : Nat, 2 ^ 64 ≤ n → packQ n = none)
  ∧ (∀ s : WorkerState, ∀ blk pre tgt, s.phase = .searching blk pre tgt →
      s.nonce < 2 ^ 64 →
      hashStep (fun _ => []) s =
        some (if fromBytesBE ([] : List Nat) < tgt
              then hitState s blk
              else { s with nonce := s.nonce + 1 })) :=
  nonce_counter_semantics [1, 2, 3, 4] ⟨none, none, 0, false, false⟩
    (fun _ => []) (fun _ => []) 32 false rfl (by decide)

/-- Claim C10: `retarget` modifies only the `target_block` field of the
shared state (installing the new candidate) and sets the retarget event;
`mined_block`, `hashrate`, the stop event and every controller-side
field are unchanged, so a pending mined block cannot be lost or
overwritten by a retarget. -/
theorem retarget_frame (env : Env) (m : Miner) :
    (Miner.retarget env m).shared.mined_block = m.shared.mined_block
  ∧ (Miner.retarget env m).shared.hashrate = m.shared.hashrate
  ∧ (Miner.retarget env m).shared.stop_event = m.shared.stop_event
  ∧ (Miner.retarget env m).shared.retarget_event = true
  ∧ (Miner.retarget env m).shared.target_block =
      some (buildCandidate env m.pubkey)
  ∧ (Miner.retarget env m).pubkey = m.pubkey
  ∧ (Miner.retarget env m).reduce_local_diff = m.reduce_local_diff
  ∧ (Miner.retarget env m).mining_active = m.mining_active
  ∧ (Miner.retarget env m).block_cb_registered = m.block_cb_registered
  ∧ (Miner.retarget env m).tx_cb_registered = m.tx_cb_registered :=
  ⟨rfl, rfl, rfl, rfl, rfl, rfl, rfl, rfl, rfl, rfl⟩

end Shitcoin
